import Mathlib

/-!
Verification of the Mp4TranscriptMaker pipeline (src/MP4.py).

Text is modelled as `List Char` (Python 3 `str` indexes and measures length in
Unicode code points, as does `List Char` here).  Pure functions (`paragraphize`,
`chunk_wav`'s slicing arithmetic) are translated directly; the filesystem and
the GUI are modelled as explicit environments fed to the orchestration
functions (`ensure_ffmpeg`, `run_pipeline`, `on_start`).
-/

namespace MP4

/-- The sentence-terminal characters of the regex `[。！？；]` in
`paragraphize` (src/MP4.py line 46): CJK full stop, full-width exclamation
mark, full-width question mark, full-width semicolon.  Note: no ASCII
characters occur in the regex. -/
def isTerminal (c : Char) : Bool :=
  c = '。' || c = '！' || c = '？' || c = '；'

/-- Whitespace stripped by Python `str.strip()`: ASCII whitespace plus the
ideographic space.  (Python strips every Unicode whitespace code point; these
are the ones that can occur in the transcripts handled here, and nothing in
the development depends on the exact set beyond its members being neither
sentence terminals nor path separators.) -/
def isSpc (c : Char) : Bool :=
  c = ' ' || c = '\t' || c = '\n' || c = '\r' || c = '\x0b' || c = '\x0c' || c = '　'

/-- Python `s.strip()`: remove leading and trailing whitespace. -/
def strip (s : List Char) : List Char :=
  List.rdropWhile isSpc (s.dropWhile isSpc)

/-- Model of `re.split(r"([。！？；])", txt)` followed by the pairwise join
`"".join(sents[i:i+2])` of src/MP4.py lines 46-47 (before the `.strip()`):
the accumulator `acc` is the text read since the last terminal; each terminal
closes the piece `acc ++ [c]`, and the trailing text (possibly empty) forms
the final piece.  `re.split` with one capture group returns
`[t0, s0, t1, s1, ..., tn]`, so the pairwise join yields exactly these
pieces. -/
def splitSentsAux : List Char → List Char → List (List Char)
  | acc, [] => [acc]
  | acc, c :: rest =>
    if isTerminal c then (acc ++ [c]) :: splitSentsAux [] rest
    else splitSentsAux (acc ++ [c]) rest

/-- The raw sentence pieces of `txt` (terminal punctuation kept attached). -/
def splitSents (txt : List Char) : List (List Char) :=
  splitSentsAux [] txt

/-- Line 47 of src/MP4.py: each pairwise-joined piece is `.strip()`ed. -/
def sentences (txt : List Char) : List (List Char) :=
  (splitSents txt).map strip

/-- One iteration of the `for s in sents` loop of `paragraphize`
(src/MP4.py lines 49-55); state is `(buf, cur)`. -/
def paraStep (t : Nat) : List (List Char) × List Char → List Char → List (List Char) × List Char
  | (buf, cur), s =>
    if cur.length + s.length < t then (buf, cur ++ s)
    else ((if (strip cur).isEmpty then buf else buf ++ [strip cur]), s)

/-- Model of `paragraphize(txt, target_max)` of src/MP4.py lines 45-58. -/
def paragraphize (txt : List Char) (t : Nat) : List (List Char) :=
  let st := (sentences txt).foldl (paraStep t) ([], [])
  if (strip st.2).isEmpty then st.1 else st.1 ++ [strip st.2]

/-- Python `range(0, stop, step)` for `step > 0` (src/MP4.py line 36):
by the documented semantics of `range`, the elements are `k * step` for
`k < ⌈stop / step⌉`, i.e. `k < (stop + step - 1) / step`. -/
def pyRange (stop step : Nat) : List Nat :=
  (List.range ((stop + step - 1) / step)).map (fun k => k * step)

/-- The chunk size in milliseconds: `step = minutes * 60 * 1000`
(src/MP4.py line 34). -/
def chunkStep (minutes : Nat) : Nat :=
  minutes * 60 * 1000

/-- Model of `chunk_wav` (src/MP4.py lines 32-43), at the level of the time intervals
cut from the audio: the loop `for i in range(0, len(audio), step)` takes the
slice `audio[i:i+step]`, whose extent is `[i, min (i+step) L)`; each pair is
`(start, length)` of one segment in milliseconds.  (The export of each slice
as a resampled part file is modelled in `run_pipeline`.) -/
def chunk_wav (audioLen minutes : Nat) : List (Nat × Nat) :=
  (pyRange audioLen (chunkStep minutes)).map
    (fun i => (i, min (i + chunkStep minutes) audioLen - i))

/-- Python `f"\x7bn:03d\x7d"`: decimal representation left-padded with `'0'`
to at least three digits (src/MP4.py line 38). -/
def pad3 (n : Nat) : List Char :=
  let s := (Nat.repr n).toList
  List.replicate (3 - s.length) '0' ++ s

/-- The environment a pipeline run observes: the base directory, the ffmpeg
probes of `ensure_ffmpeg` (existence of `base_dir / "ffmpeg.exe"`,
`shutil.which("ffmpeg")`, `shutil.which("ffmpeg.exe")`), the input file's
directory and stem, the decoded audio's length in milliseconds, and the
speech-recognition capability as an oracle giving, for chunk index `k`, the
concatenated text `"".join(s.text for s in segs)` of that chunk
(src/MP4.py line 229). -/
structure Env where
  baseDir : List Char
  localFfmpegExists : Bool
  whichFfmpeg : Option (List Char)
  whichFfmpegExe : Option (List Char)
  mp4Dir : List Char
  mp4Stem : List Char
  audioLen : Nat
  transcribe : Nat → List Char

/-- The error message of `ensure_ffmpeg` (src/MP4.py line 22). -/
def ffmpegMissingMsg : List Char :=
  "找不到 ffmpeg，請將 ffmpeg.exe 放在本程式同資料夾，或把 ffmpeg 加到 PATH。".toList

/-- Model of `ensure_ffmpeg` (src/MP4.py lines 13-24): prefer `base_dir/ffmpeg.exe`,
else `shutil.which("ffmpeg") or shutil.which("ffmpeg.exe")`; raise if both
fail.  (Path joining uses `'/'`; the separator character is irrelevant to
every property proved below.) -/
def ensure_ffmpeg (env : Env) : Except (List Char) (List Char) :=
  if env.localFfmpegExists then .ok (env.baseDir ++ '/' :: "ffmpeg.exe".toList)
  else
    match env.whichFfmpeg <|> env.whichFfmpegExe with
    | some p => .ok p
    | none => .error ffmpegMissingMsg

/-- A file written by the pipeline: the extracted waveform, a resampled
segment, or the final transcript (with its text content). -/
inductive FileWrite where
  | wavFile : List Char → FileWrite
  | partFile : List Char → FileWrite
  | textFile : List Char → List Char → FileWrite
deriving DecidableEq

/-- Model of `mp4_path.with_suffix(".wav")` (src/MP4.py line 27). -/
def wavPath (env : Env) : List Char :=
  env.mp4Dir ++ '/' :: (env.mp4Stem ++ ".wav".toList)

/-- Model of `wav_path.parent / f"\x7bwav_path.stem\x7d.part\x7bi//step:03d\x7d.wav"`
(src/MP4.py line 38), for chunk index `k = i // step`. -/
def partPath (env : Env) (k : Nat) : List Char :=
  env.mp4Dir ++ '/' :: (env.mp4Stem ++ ".part".toList ++ pad3 k ++ ".wav".toList)

/-- Model of `base_dir / "transcripts" / f"\x7bstem\x7d.txt"` (src/MP4.py lines 240-241). -/
def outPath (env : Env) : List Char :=
  env.baseDir ++ "/transcripts/".toList ++ env.mp4Stem ++ ".txt".toList

/-- The paragraph separator `"\n\n"` used by `"\n\n".join(paras)`
(src/MP4.py line 242). -/
def blankSep : List Char :=
  ['\n', '\n']

/-- Model of `App.run_pipeline` (src/MP4.py lines 200-243), as the sequence of file
writes it performs together with the error message of a failed run:
`ensure_ffmpeg` is called before anything is written; then the waveform is
extracted, the segments are exported by `chunk_wav`, each chunk is
transcribed in index order, the fragments are concatenated with no
separator, paragraphized, and the paragraphs joined by `"\n\n"` are written
to `outPath`.  In this model only the ffmpeg probe can fail (the external
capabilities are total oracles), matching the claims settled about it. -/
def run_pipeline (env : Env) (minutes paraMax : Nat) :
    List FileWrite × Option (List Char) :=
  match ensure_ffmpeg env with
  | .error e => ([], some e)
  | .ok _ =>
    let chunks := chunk_wav env.audioLen minutes
    let partWrites := (List.range chunks.length).map (fun k => FileWrite.partFile (partPath env k))
    let texts := (List.range chunks.length).map env.transcribe
    let fullTxt := texts.flatten
    let paras := paragraphize fullTxt paraMax
    (FileWrite.wavFile (wavPath env) :: partWrites
       ++ [FileWrite.textFile (outPath env) (List.intercalate blankSep paras)], none)

/-- Path separators recognised by `pathlib` on Windows (the platform this
program targets): `'/'` and `'\'`. -/
def isSep (c : Char) : Bool :=
  c = '/' || c = '\\'

/-- Split a path string at separators (empty components kept, filtered by
`pathName`). -/
def splitPath : List Char → List (List Char)
  | [] => [[]]
  | c :: rest =>
    if isSep c then [] :: splitPath rest
    else
      match splitPath rest with
      | [] => [[c]]
      | p :: ps => (c :: p) :: ps

/-- Model of `pathlib.PurePath.name`: the final path component.  `pathlib` drops empty
components and single-dot components when parsing, so `name` is the last
remaining component (or empty).  (Drive letters are not modelled; the claims
using this are conditioned on non-absolute inputs.) -/
def pathName (p : List Char) : List Char :=
  (((splitPath p).filter (fun c => ¬ (c = [] ∨ c = ['.']))).getLast?).getD []

/-- Model of `base_dir / name` (src/MP4.py line 175). -/
def joinPath (dir name : List Char) : List Char :=
  dir ++ '/' :: name

/-- What `App.on_start` observes: the running guard, the raw text of the
input field, the base directory, `Path(input).is_absolute()` for the
stripped input, and the filesystem existence oracle. -/
structure StartEnv where
  running : Bool
  rawInput : List Char
  baseDir : List Char
  inputIsAbsolute : Bool
  pathExists : List Char → Bool

/-- The observable outcome of `App.on_start` (src/MP4.py lines 163-198). -/
inductive StartOutcome where
  /-- Case `self.running` was true: the click is ignored. -/
  | busy : StartOutcome
  /-- Case of empty input: the "please choose a file" warning. -/
  | emptyWarn : StartOutcome
  /-- Case where the resolved path does not exist: the "file not found" error,
  shown before any worker thread is created. -/
  | notFound : List Char → StartOutcome
  /-- Case where the worker thread is started on the resolved path. -/
  | started : List Char → StartOutcome
deriving DecidableEq

/-- Model of `App.on_start` (src/MP4.py lines 163-198): strip the field text; reject
empty input; resolve a non-absolute path as `base_dir / Path(input).name`
(an absolute path is used as given); reject a non-existing resolved path
before the worker starts. -/
def on_start (env : StartEnv) : StartOutcome :=
  if env.running then .busy
  else
    let input := strip env.rawInput
    if input.isEmpty then .emptyWarn
    else
      let p := if env.inputIsAbsolute then input else joinPath env.baseDir (pathName input)
      if env.pathExists p then .started p else .notFound p

/-- A stripped sentence as produced by line 47 of src/MP4.py: it is a fixed
point of `strip`, and it is a terminal-free text optionally followed by a
single terminal character. -/
def GoodSent (s : List Char) : Prop :=
  strip s = s ∧
    ∃ u, (∀ c ∈ u, isTerminal c = false) ∧
      (s = u ∨ ∃ tc, isTerminal tc = true ∧ s = u ++ [tc])

/-- What holds of every paragraph `paragraphize` emits: it is non-empty and
each of its own sentence pieces is already stripped. -/
def ParaOK (b : List Char) : Prop :=
  b ≠ [] ∧ ∀ q ∈ splitSents b, strip q = q

/-! ### Lemmas about `splitSentsAux` -/

theorem getLast?_cons_ne {α : Type} (a : α) (l : List α) (h : l ≠ []) :
    (a :: l).getLast? = l.getLast? := by
  cases l with
  | nil => exact absurd rfl h
  | cons b t => rfl

theorem splitSentsAux_ne_nil (x acc : List Char) : splitSentsAux acc x ≠ [] := by
  induction x generalizing acc with
  | nil => simp [splitSentsAux]
  | cons c rest ih =>
    simp only [splitSentsAux]
    split
    · simp
    · exact ih _

theorem splitSentsAux_flatten (x acc : List Char) :
    (splitSentsAux acc x).flatten = acc ++ x := by
  induction x generalizing acc with
  | nil => simp [splitSentsAux]
  | cons c rest ih =>
    simp only [splitSentsAux]
    split
    · simp [ih]
    · simp [ih]

theorem splitSents_flatten (txt : List Char) : (splitSents txt).flatten = txt := by
  simpa using splitSentsAux_flatten txt []

theorem splitSentsAux_good (x acc : List Char)
    (hacc : ∀ c ∈ acc, isTerminal c = false) :
    ∀ p ∈ splitSentsAux acc x,
      ∃ u, (∀ c ∈ u, isTerminal c = false) ∧
        (p = u ∨ ∃ tc, isTerminal tc = true ∧ p = u ++ [tc]) := by
  induction x generalizing acc with
  | nil =>
    intro p hp
    simp only [splitSentsAux, List.mem_singleton] at hp
    exact ⟨acc, hacc, Or.inl hp⟩
  | cons c rest ih =>
    intro p hp
    simp only [splitSentsAux] at hp
    by_cases hc : isTerminal c = true
    · rw [if_pos hc] at hp
      rcases List.mem_cons.mp hp with h | h
      · exact ⟨acc, hacc, Or.inr ⟨c, hc, h⟩⟩
      · exact ih [] (by simp) p h
    · rw [if_neg hc] at hp
      refine ih (acc ++ [c]) ?_ p hp
      intro d hd
      rcases List.mem_append.mp hd with h | h
      · exact hacc d h
      · simp only [List.mem_singleton] at h
        subst h
        simpa using hc

theorem splitSentsAux_dropLast_term (x acc : List Char)
    (hacc : ∀ c ∈ acc, isTerminal c = false) :
    ∀ p ∈ (splitSentsAux acc x).dropLast,
      ∃ u tc, (∀ c ∈ u, isTerminal c = false) ∧ isTerminal tc = true ∧ p = u ++ [tc] := by
  induction x generalizing acc with
  | nil =>
    intro p hp
    simp [splitSentsAux] at hp
  | cons c rest ih =>
    intro p hp
    simp only [splitSentsAux] at hp
    by_cases hc : isTerminal c = true
    · rw [if_pos hc] at hp
      rw [List.dropLast_cons_of_ne_nil (splitSentsAux_ne_nil rest [])] at hp
      rcases List.mem_cons.mp hp with h | h
      · exact ⟨acc, c, hacc, hc, h⟩
      · exact ih [] (by simp) p h
    · rw [if_neg hc] at hp
      refine ih (acc ++ [c]) ?_ p hp
      intro d hd
      rcases List.mem_append.mp hd with h | h
      · exact hacc d h
      · simp only [List.mem_singleton] at h
        subst h
        simpa using hc

theorem splitSentsAux_getLast_free (x acc : List Char)
    (hacc : ∀ c ∈ acc, isTerminal c = false) :
    ∀ q, (splitSentsAux acc x).getLast? = some q → ∀ c ∈ q, isTerminal c = false := by
  induction x generalizing acc with
  | nil =>
    intro q hq
    simp only [splitSentsAux, List.getLast?_singleton, Option.some.injEq] at hq
    subst hq
    exact hacc
  | cons c rest ih =>
    intro q hq
    simp only [splitSentsAux] at hq
    by_cases hc : isTerminal c = true
    · rw [if_pos hc] at hq
      have hne := splitSentsAux_ne_nil rest ([] : List Char)
      rw [getLast?_cons_ne _ _ hne] at hq
      exact ih [] (by simp) q hq
    · rw [if_neg hc] at hq
      refine ih (acc ++ [c]) ?_ q hq
      intro d hd
      rcases List.mem_append.mp hd with h | h
      · exact hacc d h
      · simp only [List.mem_singleton] at h
        subst h
        simpa using hc

theorem splitSentsAux_append_free (u : List Char)
    (hu : ∀ c ∈ u, isTerminal c = false) (acc y : List Char) :
    splitSentsAux acc (u ++ y) = splitSentsAux (acc ++ u) y := by
  induction u generalizing acc with
  | nil => simp
  | cons c rest ih =>
    have hc : isTerminal c = false := hu c (by simp)
    simp only [List.cons_append, splitSentsAux, hc, List.append_eq]
    rw [if_neg (by simp)]
    rw [ih (fun d hd => hu d (by simp [hd])) (acc ++ [c])]
    simp

theorem splitSentsAux_append_term (u : List Char)
    (hu : ∀ c ∈ u, isTerminal c = false) (tc : Char) (htc : isTerminal tc = true)
    (acc y : List Char) :
    splitSentsAux acc (u ++ tc :: y) = (acc ++ u ++ [tc]) :: splitSentsAux [] y := by
  rw [splitSentsAux_append_free u hu acc (tc :: y)]
  simp [splitSentsAux, htc]

/-! ### Lemmas about `strip` -/

theorem strip_nil : strip [] = [] := rfl

theorem strip_sublist (s : List Char) : List.Sublist (strip s) s :=
  ((List.rdropWhile_prefix isSpc _).sublist).trans ((List.dropWhile_suffix isSpc).sublist)

theorem strip_length_le (s : List Char) : (strip s).length ≤ s.length :=
  (strip_sublist s).length_le

theorem dropWhile_eq_self_of_strip (s : List Char) (h : strip s = s) :
    s.dropWhile isSpc = s := by
  have h1 : List.Sublist (s.dropWhile isSpc) s := (List.dropWhile_suffix isSpc).sublist
  have h2 : List.Sublist (strip s) (s.dropWhile isSpc) :=
    (List.rdropWhile_prefix isSpc _).sublist
  refine h1.eq_of_length (le_antisymm h1.length_le ?_)
  calc s.length = (strip s).length := by rw [h]
    _ ≤ (s.dropWhile isSpc).length := h2.length_le

theorem rdropWhile_eq_self_of_strip (s : List Char) (h : strip s = s) :
    List.rdropWhile isSpc s = s := by
  have hd := dropWhile_eq_self_of_strip s h
  unfold strip at h
  rwa [hd] at h

theorem strip_eq_self_of (s : List Char) (h1 : s.dropWhile isSpc = s)
    (h2 : List.rdropWhile isSpc s = s) : strip s = s := by
  unfold strip
  rw [h1, h2]

theorem head_not_spc_of_dropWhile_eq_self (s : List Char) (h : s.dropWhile isSpc = s)
    (hs : s ≠ []) : ∀ c, s.head? = some c → isSpc c = false := by
  intro c hc
  cases s with
  | nil => simp at hc
  | cons a t =>
    simp only [List.head?_cons, Option.some.injEq] at hc
    cases hval : isSpc a with
    | false => rw [← hc]; exact hval
    | true =>
      rw [List.dropWhile_cons_of_pos hval] at h
      have hlen := congrArg List.length h
      have hle : (t.dropWhile isSpc).length ≤ t.length :=
        ((List.dropWhile_suffix isSpc).sublist).length_le
      simp at hlen
      omega

theorem dropWhile_eq_self_of_head (s : List Char)
    (h : ∀ c, s.head? = some c → isSpc c = false) : s.dropWhile isSpc = s := by
  cases s with
  | nil => rfl
  | cons a t =>
    have := h a (by simp)
    rw [List.dropWhile_cons_of_neg (by simp [this])]

theorem last_not_spc_of_rdropWhile_eq_self (s : List Char)
    (h : List.rdropWhile isSpc s = s) : ∀ c, s.getLast? = some c → isSpc c = false := by
  intro c hc
  have hs : s ≠ [] := by
    intro he
    subst he
    simp at hc
  have := List.rdropWhile_eq_self_iff.mp h hs
  rw [List.getLast?_eq_getLast s hs] at hc
  simp only [Option.some.injEq] at hc
  subst hc
  simpa using this

theorem rdropWhile_eq_self_of_last (s : List Char)
    (h : ∀ c, s.getLast? = some c → isSpc c = false) : List.rdropWhile isSpc s = s := by
  cases he : s.getLast? with
  | none =>
    have : s = [] := by
      cases s with
      | nil => rfl
      | cons a t => simp [List.getLast?_eq_getLast] at he
    subst this
    rfl
  | some c =>
    refine List.rdropWhile_eq_self_iff.mpr ?_
    intro hl
    have hns := h c he
    rw [List.getLast?_eq_getLast s hl, Option.some.injEq] at he
    rw [he]
    simp [hns]

theorem strip_idem (s : List Char) : strip (strip s) = strip s := by
  rcases he : strip s with _ | ⟨a, t⟩
  · rfl
  · rw [← he]
    refine strip_eq_self_of _ ?_ ?_
    · refine dropWhile_eq_self_of_head _ ?_
      intro c hc
      unfold strip at hc
      have hpre := (List.rdropWhile_prefix isSpc (s.dropWhile isSpc))
      obtain ⟨tail, htail⟩ := hpre
      have hne : List.rdropWhile isSpc (s.dropWhile isSpc) ≠ [] := by
        rw [show List.rdropWhile isSpc (s.dropWhile isSpc) = strip s from rfl, he]
        simp
      have hdne : s.dropWhile isSpc ≠ [] := by
        intro hnil
        apply hne
        rw [hnil]
        rfl
      have hh : (s.dropWhile isSpc).head? = some c := by
        rw [← htail, List.head?_append_of_ne_nil _ hne]
        exact hc
      have hns := List.head_dropWhile_not isSpc s (by exact hdne)
      rw [List.head?_eq_head hdne, Option.some.injEq] at hh
      rw [← hh]
      exact hns
    · exact List.rdropWhile_idempotent isSpc _

theorem strip_append_strip (a b : List Char) (ha : strip a = a) (hb : strip b = b) :
    strip (a ++ b) = a ++ b := by
  by_cases hane : a = []
  · subst hane
    simpa using hb
  · by_cases hbne : b = []
    · subst hbne
      simpa using ha
    · refine strip_eq_self_of _ ?_ ?_
      · refine dropWhile_eq_self_of_head _ ?_
        intro c hc
        rw [List.head?_append_of_ne_nil _ hane] at hc
        exact head_not_spc_of_dropWhile_eq_self a (dropWhile_eq_self_of_strip a ha) hane c hc
      · refine rdropWhile_eq_self_of_last _ ?_
        intro c hc
        rw [List.getLast?_append_of_ne_nil _ hbne] at hc
        exact last_not_spc_of_rdropWhile_eq_self b (rdropWhile_eq_self_of_strip b hb) c hc

theorem strip_flatten (L : List (List Char)) (h : ∀ s ∈ L, strip s = s) :
    strip L.flatten = L.flatten := by
  induction L with
  | nil => rfl
  | cons x xs ih =>
    rw [List.flatten_cons]
    exact strip_append_strip _ _ (h x (by simp)) (ih (fun s hs => h s (by simp [hs])))

theorem strip_append_single (u : List Char) (c : Char) (hc : isSpc c = false) :
    strip (u ++ [c]) = u.dropWhile isSpc ++ [c] := by
  unfold strip
  rw [List.dropWhile_append]
  by_cases hdu : (u.dropWhile isSpc).isEmpty
  · rw [if_pos hdu, List.isEmpty_iff.mp hdu, List.nil_append,
      List.dropWhile_cons_of_neg (by simp [hc])]
    rw [show ([c] : List Char) = [] ++ [c] from rfl,
      List.rdropWhile_concat_neg _ _ _ (by simp [hc]), List.nil_append]
  · rw [if_neg hdu, List.rdropWhile_concat_neg _ _ _ (by simp [hc])]

theorem terminal_not_spc (c : Char) (h : isTerminal c = true) : isSpc c = false := by
  unfold isTerminal at h
  simp only [Bool.or_eq_true, decide_eq_true_eq] at h
  rcases h with ((h | h) | h) | h <;> subst h <;> decide

/-! ### Sentences produced by line 47 are good -/

theorem sentences_good (txt : List Char) : ∀ s ∈ sentences txt, GoodSent s := by
  intro s hs
  unfold sentences at hs
  rcases List.mem_map.mp hs with ⟨p, hp, hps⟩
  obtain ⟨u, hu, hshape⟩ := splitSentsAux_good txt [] (by simp) p hp
  subst hps
  refine ⟨strip_idem p, ?_⟩
  rcases hshape with heq | ⟨tc, htc, heq⟩
  · refine ⟨strip p, ?_, Or.inl rfl⟩
    intro c hc
    have hcp : c ∈ p := (strip_sublist p).mem hc
    rw [heq] at hcp
    exact hu c hcp
  · rw [heq, strip_append_single u tc (terminal_not_spc tc htc)]
    refine ⟨u.dropWhile isSpc, ?_, Or.inr ⟨tc, htc, rfl⟩⟩
    intro c hc
    exact hu c (((List.dropWhile_suffix isSpc).sublist).mem hc)

/-- The sentence pieces of a concatenation of good sentences are themselves
concatenations of stripped lists, hence stripped:
splitting at terminals can only cut at sentence boundaries, because a good
sentence contains a terminal only as its final character. -/
theorem good_flatten_pieces (S : List (List Char)) (hS : ∀ s ∈ S, GoodSent s) :
    ∀ acc, strip acc = acc → ∀ p ∈ splitSentsAux acc S.flatten, strip p = p := by
  induction S with
  | nil =>
    intro acc hacc p hp
    simp only [List.flatten_nil, splitSentsAux, List.mem_singleton] at hp
    subst hp
    exact hacc
  | cons s S' ih =>
    intro acc hacc p hp
    have hgs : GoodSent s := hS s (by simp)
    have hS' : ∀ x ∈ S', GoodSent x := fun x hx => hS x (by simp [hx])
    obtain ⟨hstr, u, hu, hshape⟩ := hgs
    rw [List.flatten_cons] at hp
    rcases hshape with heq | ⟨tc, htc, heq⟩
    · rw [heq] at hp hstr
      rw [splitSentsAux_append_free u hu acc S'.flatten] at hp
      exact ih hS' (acc ++ u) (strip_append_strip acc u hacc hstr) p hp
    · rw [heq] at hp hstr
      rw [List.append_assoc u [tc] S'.flatten, List.singleton_append] at hp
      rw [splitSentsAux_append_term u hu tc htc acc S'.flatten] at hp
      rcases List.mem_cons.mp hp with heqp | hmem
      · rw [heqp, List.append_assoc]
        exact strip_append_strip acc (u ++ [tc]) hacc hstr
      · exact ih hS' [] rfl p hmem

theorem paraOK_strip (b : List Char) (h : ParaOK b) : strip b = b := by
  have := strip_flatten (splitSents b) h.2
  rwa [splitSents_flatten] at this

/-! ### The accumulation loop of `paragraphize` -/

/-- The fold invariant of the loop at src/MP4.py lines 49-55: every flushed
paragraph satisfies `ParaOK`, and the running buffer is a concatenation of
good sentences. -/
theorem fold_inv (t : Nat) :
    ∀ (qs : List (List Char)) (buf : List (List Char)) (cur : List Char),
      (∀ q ∈ qs, GoodSent q) →
      (∃ L : List (List Char), (∀ s ∈ L, GoodSent s) ∧ cur = L.flatten) →
      (∀ b ∈ buf, ParaOK b) →
      (∀ b ∈ (qs.foldl (paraStep t) (buf, cur)).1, ParaOK b) ∧
        (∃ L : List (List Char), (∀ s ∈ L, GoodSent s) ∧
          (qs.foldl (paraStep t) (buf, cur)).2 = L.flatten) := by
  intro qs
  induction qs with
  | nil =>
    intro buf cur _ hcur hbuf
    exact ⟨hbuf, hcur⟩
  | cons q qs' ih =>
    intro buf cur hq hcur hbuf
    have hgq : GoodSent q := hq q (by simp)
    have hq' : ∀ x ∈ qs', GoodSent x := fun x hx => hq x (by simp [hx])
    obtain ⟨L, hL, rfl⟩ := hcur
    rw [List.foldl_cons]
    by_cases hcond : (L.flatten).length + q.length < t
    · rw [show paraStep t (buf, L.flatten) q = (buf, L.flatten ++ q) from by
        simp only [paraStep]; rw [if_pos hcond]]
      refine ih buf _ hq' ⟨L ++ [q], ?_, by simp⟩ hbuf
      intro s hs
      rcases List.mem_append.mp hs with h | h
      · exact hL s h
      · simp only [List.mem_singleton] at h
        subst h
        exact hgq
    · have hstrip : strip L.flatten = L.flatten :=
        strip_flatten L (fun s hs => (hL s hs).1)
      by_cases hemp : (strip L.flatten).isEmpty = true
      · rw [show paraStep t (buf, L.flatten) q = (buf, q) from by
          simp only [paraStep]; rw [if_neg hcond, if_pos hemp]]
        exact ih buf q hq' ⟨[q], by simpa using hgq, by simp⟩ hbuf
      · rw [show paraStep t (buf, L.flatten) q = (buf ++ [strip L.flatten], q) from by
          simp only [paraStep]; rw [if_neg hcond, if_neg hemp]]
        refine ih _ q hq' ⟨[q], by simpa using hgq, by simp⟩ ?_
        intro b hb
        rcases List.mem_append.mp hb with h | h
        · exact hbuf b h
        · simp only [List.mem_singleton] at h
          subst h
          constructor
          · rw [hstrip]
            intro hnil
            rw [hstrip, hnil] at hemp
            simp at hemp
          · rw [hstrip]
            intro piece hpiece
            exact good_flatten_pieces L hL [] rfl piece hpiece

/-- Every paragraph the formatter emits satisfies `ParaOK`. -/
theorem out_paraOK (txt : List Char) (t : Nat) :
    ∀ p ∈ paragraphize txt t, ParaOK p := by
  intro p hp
  unfold paragraphize at hp
  obtain ⟨hbuf, L, hL, hcur⟩ :=
    fold_inv t (sentences txt) [] [] (sentences_good txt)
      ⟨[], by simp, rfl⟩ (by simp)
  set st := (sentences txt).foldl (paraStep t) ([], []) with hst
  by_cases hemp : (strip st.2).isEmpty = true
  · rw [if_pos hemp] at hp
    exact hbuf p hp
  · rw [if_neg hemp] at hp
    rcases List.mem_append.mp hp with h | h
    · exact hbuf p h
    · simp only [List.mem_singleton] at h
      subst h
      have hstrip : strip st.2 = st.2 := by
        rw [hcur]
        exact strip_flatten L (fun s hs => (hL s hs).1)
      constructor
      · rw [hstrip]
        intro hnil
        rw [hnil] at hemp
        simp only [List.isEmpty_iff] at hemp
        exact hemp rfl
      · rw [hstrip, hcur]
        intro piece hpiece
        exact good_flatten_pieces L hL [] rfl piece hpiece

/-- The loop preserves the concatenation of all text seen so far: flushing
appends `strip cur = cur` to `buf` and restarts `cur`, so
`buf.flatten ++ cur` only ever grows by the next stripped sentence. -/
theorem fold_flatten (t : Nat) :
    ∀ (qs : List (List Char)) (buf : List (List Char)) (cur : List Char),
      (∀ q ∈ qs, strip q = q) → strip cur = cur →
      ((qs.foldl (paraStep t) (buf, cur)).1.flatten ++ (qs.foldl (paraStep t) (buf, cur)).2
          = buf.flatten ++ cur ++ qs.flatten) ∧
        strip (qs.foldl (paraStep t) (buf, cur)).2 = (qs.foldl (paraStep t) (buf, cur)).2 := by
  intro qs
  induction qs with
  | nil =>
    intro buf cur _ hcur
    constructor
    · simp
    · simpa using hcur
  | cons q qs' ih =>
    intro buf cur hq hcur
    have hsq : strip q = q := hq q (by simp)
    have hq' : ∀ x ∈ qs', strip x = x := fun x hx => hq x (by simp [hx])
    rw [List.foldl_cons]
    by_cases hcond : cur.length + q.length < t
    · rw [show paraStep t (buf, cur) q = (buf, cur ++ q) from by
        simp only [paraStep]; rw [if_pos hcond]]
      have := ih buf (cur ++ q) hq' (strip_append_strip cur q hcur hsq)
      rw [this.1]
      refine ⟨by simp, this.2⟩
    · by_cases hemp : (strip cur).isEmpty = true
      · have hcurnil : cur = [] := by
          rw [hcur] at hemp
          exact List.isEmpty_iff.mp hemp
        rw [show paraStep t (buf, cur) q = (buf, q) from by
          simp only [paraStep]; rw [if_neg hcond, if_pos hemp]]
        have := ih buf q hq' hsq
        rw [this.1]
        subst hcurnil
        refine ⟨by simp, this.2⟩
      · rw [show paraStep t (buf, cur) q = (buf ++ [strip cur], q) from by
          simp only [paraStep]; rw [if_neg hcond, if_neg hemp]]
        have h2 := ih (buf ++ [strip cur]) q hq' hsq
        refine ⟨?_, h2.2⟩
        rw [h2.1, hcur]
        simp

/-- If the total remaining length stays under the budget, the loop never
flushes: it just appends every sentence to the running buffer. -/
theorem fold_noflush (t : Nat) :
    ∀ (qs : List (List Char)) (buf : List (List Char)) (cur : List Char),
      cur.length + (qs.map List.length).sum < t →
      qs.foldl (paraStep t) (buf, cur) = (buf, cur ++ qs.flatten) := by
  intro qs
  induction qs with
  | nil =>
    intro buf cur _
    simp
  | cons q qs' ih =>
    intro buf cur hlt
    simp only [List.map_cons, List.sum_cons] at hlt
    rw [List.foldl_cons]
    rw [show paraStep t (buf, cur) q = (buf, cur ++ q) from by
      simp only [paraStep]; rw [if_pos (by omega)]]
    rw [ih buf (cur ++ q) (by simp; omega)]
    simp

/-- Any non-empty string whose sentence pieces are all stripped and whose
length is below the budget is reflowed to the single paragraph `[p]`. -/
theorem reflow_small (p : List Char) (t : Nat)
    (hpieces : ∀ q ∈ splitSents p, strip q = q) (hne : p ≠ [])
    (hlen : p.length < t) : paragraphize p t = [p] := by
  have hsents : sentences p = splitSents p := by
    unfold sentences
    have := List.map_congr_left hpieces
    simpa using this
  have hsum : ((splitSents p).map List.length).sum = p.length := by
    rw [← List.length_flatten, splitSents_flatten]
  unfold paragraphize
  rw [hsents, fold_noflush t (splitSents p) [] [] (by rw [hsum]; simpa using hlen)]
  simp only [List.nil_append, splitSents_flatten]
  have hstrip : strip p = p := by
    have := strip_flatten (splitSents p) hpieces
    rwa [splitSents_flatten] at this
  rw [hstrip, if_neg (by simpa [List.isEmpty_iff] using hne)]

/-! ### Chunker arithmetic -/

theorem chunkStep_pos (minutes : Nat) (hm : 0 < minutes) : 0 < chunkStep minutes := by
  unfold chunkStep
  omega

theorem mul_lt_of_lt_ceil (L d k : Nat) (hd : 0 < d) (hk : k < (L + d - 1) / d) :
    k * d < L := by
  have h2 : (k + 1) * d ≤ L + d - 1 := (Nat.le_div_iff_mul_le hd).mp hk
  rw [Nat.succ_mul] at h2
  omega

theorem le_ceil_mul (L d : Nat) (hd : 0 < d) : L ≤ (L + d - 1) / d * d := by
  have h1 := Nat.div_add_mod (L + d - 1) d
  have h2 := Nat.mod_lt (L + d - 1) hd
  generalize hq : (L + d - 1) / d = q at *
  generalize hr : (L + d - 1) % d = r at *
  have h3 : d * q + r = L + d - 1 := h1
  rw [Nat.mul_comm] at h3
  omega

theorem ceil_pos (L d : Nat) (hd : 0 < d) (hL : 0 < L) : 0 < (L + d - 1) / d := by
  have h1 : 1 * d ≤ L + d - 1 := by omega
  have h2 := (Nat.le_div_iff_mul_le hd).mpr h1
  omega

theorem chunk_wav_length (L minutes : Nat) :
    (chunk_wav L minutes).length = (L + chunkStep minutes - 1) / chunkStep minutes := by
  unfold chunk_wav pyRange
  simp

theorem chunk_wav_getElem (L minutes k : Nat) (h : k < (chunk_wav L minutes).length) :
    (chunk_wav L minutes)[k] =
      (k * chunkStep minutes,
        min (k * chunkStep minutes + chunkStep minutes) L - k * chunkStep minutes) := by
  unfold chunk_wav pyRange at h ⊢
  simp at h ⊢

/-! ### Path resolution -/

theorem splitPath_ne_nil (p : List Char) : splitPath p ≠ [] := by
  induction p with
  | nil => simp [splitPath]
  | cons c cs ih =>
    simp only [splitPath]
    split
    · simp
    · cases hcs : splitPath cs with
      | nil => simp
      | cons q qs => simp

theorem splitPath_append_sep (a b : List Char) :
    splitPath (a ++ '/' :: b) = splitPath a ++ splitPath b := by
  induction a with
  | nil => simp [splitPath, isSep]
  | cons c cs ih =>
    by_cases hc : isSep c = true
    · simp only [List.cons_append, splitPath, hc, if_pos, List.append_eq]
      rw [ih]
    · simp only [List.cons_append, splitPath, hc, List.append_eq]
      rw [if_neg (by simp), if_neg (by simp), ih]
      cases hcs : splitPath cs with
      | nil => exact absurd hcs (splitPath_ne_nil cs)
      | cons q qs => simp

theorem splitPath_no_sep (nm : List Char) (h : ∀ c ∈ nm, isSep c = false)
    (hne : nm ≠ []) : splitPath nm = [nm] := by
  induction nm with
  | nil => exact absurd rfl hne
  | cons c cs ih =>
    have hc : isSep c = false := h c (by simp)
    by_cases hcs : cs = []
    · subst hcs
      simp [splitPath, hc]
    · have := ih (fun d hd => h d (by simp [hd])) hcs
      simp only [splitPath, hc]
      rw [if_neg (by simp), this]

theorem pathName_append (dir nm : List Char) (hne : nm ≠ [])
    (hfree : ∀ c ∈ nm, isSep c = false) (hdot : nm ≠ ['.']) :
    pathName (dir ++ '/' :: nm) = nm := by
  unfold pathName
  rw [splitPath_append_sep, splitPath_no_sep nm hfree hne, List.filter_append]
  have hpass : (fun c => decide ¬(c = [] ∨ c = ['.'])) nm = true := by
    simp only [decide_eq_true_eq]
    exact fun h => h.elim hne hdot
  rw [show List.filter (fun c => decide ¬(c = [] ∨ c = ['.'])) [nm] = [nm] from by
    rw [List.filter_cons, if_pos hpass, List.filter_nil]]
  rw [List.getLast?_concat]
  rfl

/-! ### Claim theorems -/

/-- C1: the paragraph formatter accumulates sentences greedily and flushes
the running buffer exactly when adding the next sentence would make its
length reach or exceed the target (a tie at exactly the target flushes),
starting the new buffer with that sentence; equivalently, for a non-empty
buffer, `s` is appended to the running buffer `cur` iff
`len(cur) + len(s) < target`.  (`strip cur = cur` holds of every reachable
buffer, cf. `fold_inv`; an empty buffer is never flushed, matching the
`if cur.strip()` guard of src/MP4.py line 53.) -/
theorem claim_C1 (t : Nat) (buf : List (List Char)) (cur s : List Char)
    (hcur : strip cur = cur) :
    paraStep t (buf, cur) s =
      (if cur.length + s.length < t then (buf, cur ++ s)
       else ((if cur = [] then buf else buf ++ [cur]), s)) ∧
    (cur ≠ [] → ((paraStep t (buf, cur) s).2 = cur ++ s ↔ cur.length + s.length < t)) := by
  constructor
  · simp only [paraStep, hcur]
    by_cases hcond : cur.length + s.length < t
    · rw [if_pos hcond, if_pos hcond]
    · rw [if_neg hcond, if_neg hcond]
      by_cases hnil : cur = []

      · rw [if_pos (by simp [hnil]), if_pos hnil]
      · rw [if_neg (by simpa [List.isEmpty_iff] using hnil), if_neg hnil]
  · intro hne
    constructor
    · intro happ
      by_contra hcond
      have hsnd : (paraStep t (buf, cur) s).2 = s := by
        simp only [paraStep]
        rw [if_neg hcond]
      rw [hsnd] at happ
      have hlen := congrArg List.length happ
      simp only [List.length_append] at hlen
      exact hne (List.length_eq_zero.mp (by omega))
    · intro hcond
      simp only [paraStep]
      rw [if_pos hcond]

/-- Witness for C1 at a concrete state: with budget 3, buffer `"a"` and
sentence `"bc"`, the tie `1 + 2 = 3` flushes the buffer and restarts with
the sentence. -/
theorem claim_C1_witness :
    paraStep 3 ([], ['a']) ['b', 'c'] = ([['a']], ['b', 'c']) := by
  have h := (claim_C1 3 [] ['a'] ['b', 'c'] (by decide)).1
  rw [h]
  decide

/-- C4: rejoining the output paragraphs with no separator reproduces exactly
the concatenation of the split-and-stripped sentences of the input. -/
theorem claim_C4 (txt : List Char) (t : Nat) :
    (paragraphize txt t).flatten = ((splitSents txt).map strip).flatten := by
  show (paragraphize txt t).flatten = (sentences txt).flatten
  have hsq : ∀ q ∈ sentences txt, strip q = q := fun q hq => (sentences_good txt q hq).1
  obtain ⟨h1, h2⟩ := fold_flatten t (sentences txt) [] [] hsq rfl
  unfold paragraphize
  set st := (sentences txt).foldl (paraStep t) ([], []) with hst
  simp only [List.flatten_nil, List.nil_append] at h1
  by_cases hemp : (strip st.2).isEmpty = true
  · rw [if_pos hemp]
    have hnil : st.2 = [] := by
      rw [← h2]
      exact List.isEmpty_iff.mp hemp
    rw [← h1, hnil]
    simp
  · rw [if_neg hemp]
    rw [← h1]
    simp [h2]

/-- C5: the formatter is idempotent on its own under-budget output: a
paragraph `p` it produced with budget `t` such that `len(p) < t` is returned
unchanged as the single paragraph `[p]`. -/
theorem claim_C5 (txt p : List Char) (t : Nat) (hp : p ∈ paragraphize txt t)
    (hlen : p.length < t) : paragraphize p t = [p] := by
  have h := out_paraOK txt t p hp
  exact reflow_small p t h.2 h.1 hlen

/-- Witness for C5: the single paragraph produced from `"aa。b。"` at budget
170 is under budget and reflows to itself. -/
theorem claim_C5_witness :
    paragraphize ['a', 'a', '。', 'b', '。'] 170 = [['a', 'a', '。', 'b', '。']] :=
  claim_C5 ['a', 'a', '。', 'b', '。'] ['a', 'a', '。', 'b', '。'] 170
    (by decide) (by decide)

/-- C6: a single sentence at least as long as the budget is emitted as its
own unsplit paragraph, and the empty input yields the empty paragraph
list. -/
theorem claim_C6 :
    (∀ (t : Nat) (txt : List Char), txt ≠ [] → strip txt = txt →
        (∀ c ∈ txt.dropLast, isTerminal c = false) → t ≤ txt.length →
        paragraphize txt t = [txt]) ∧
      (∀ t : Nat, paragraphize [] t = []) := by
  constructor
  · intro t txt hne hstrip hfree hlen
    have hlast := List.dropLast_append_getLast hne
    have hstep1 : paraStep t ([], []) txt = ([], txt) := by
      simp only [paraStep]
      rw [if_neg (by simp only [List.length_nil, Nat.zero_add]; omega)]
      rfl
    by_cases hterm : isTerminal (txt.getLast hne) = true
    · have hsplit : splitSents txt = [txt, []] := by
        unfold splitSents
        conv_lhs => rw [← hlast]
        rw [splitSentsAux_append_term txt.dropLast hfree _ hterm [] []]
        simp [splitSentsAux, hlast]
      have hsents : sentences txt = [txt, []] := by
        unfold sentences
        rw [hsplit]
        simp [hstrip, strip_nil]
      have hstep2 : paraStep t ([], txt) [] = ([txt], []) := by
        simp only [paraStep]
        rw [if_neg (by simp only [List.length_nil, Nat.add_zero]; omega)]
        rw [hstrip, if_neg (by simpa [List.isEmpty_iff] using hne)]
        rfl
      unfold paragraphize
      rw [hsents, List.foldl_cons, hstep1, List.foldl_cons, hstep2, List.foldl_nil]
      rfl
    · have hfree' : ∀ c ∈ txt, isTerminal c = false := by
        intro c hc
        rw [← hlast] at hc
        rcases List.mem_append.mp hc with h | h
        · exact hfree c h
        · simp only [List.mem_singleton] at h
          subst h
          cases hval : isTerminal (txt.getLast hne)
          · rfl
          · exact absurd hval hterm
      have hsplit : splitSents txt = [txt] := by
        unfold splitSents
        have hfr := splitSentsAux_append_free txt hfree' [] []
        rw [List.append_nil] at hfr
        rw [hfr]
        simp [splitSentsAux]
      have hsents : sentences txt = [txt] := by
        unfold sentences
        rw [hsplit]
        simp [hstrip]
      unfold paragraphize
      rw [hsents, List.foldl_cons, hstep1, List.foldl_nil]
      show (if (strip txt).isEmpty = true then [] else [] ++ [strip txt]) = [txt]
      rw [hstrip, if_neg (by simpa [List.isEmpty_iff] using hne)]
      rfl
  · intro t
    have hstep : paraStep t ([], ([] : List Char)) [] = ([], []) := by
      simp only [paraStep]
      by_cases h : ([] : List Char).length + ([] : List Char).length < t
      · rw [if_pos h]
        rfl
      · rw [if_neg h]
        rfl
    have hfold : (sentences []).foldl (paraStep t) ([], []) = ([], []) := by
      show [[]].foldl (paraStep t) ([], []) = ([], [])
      rw [List.foldl_cons, hstep, List.foldl_nil]
    unfold paragraphize
    rw [hfold]
    rfl

/-- Witness for C6: `"abc"` with budget 2 stays one oversized paragraph, and
the empty string at budget 5 gives no paragraphs. -/
theorem claim_C6_witness :
    paragraphize ['a', 'b', 'c'] 2 = [['a', 'b', 'c']] ∧ paragraphize [] 5 = [] :=
  ⟨claim_C6.1 2 ['a', 'b', 'c'] (by decide) (by decide) (by decide) (by decide),
    claim_C6.2 5⟩

/-- C9: every paragraph the formatter returns is non-empty and carries no
leading or trailing whitespace. -/
theorem claim_C9 (txt : List Char) (t : Nat) :
    ∀ p ∈ paragraphize txt t, p ≠ [] ∧ strip p = p := by
  intro p hp
  have h := out_paraOK txt t p hp
  exact ⟨h.1, paraOK_strip p h⟩

/-- Witness for C9: the paragraph produced from `" a。"` is the stripped,
non-empty `"a。"`. -/
theorem claim_C9_witness :
    ['a', '。'] ≠ [] ∧ strip ['a', '。'] = ['a', '。'] :=
  claim_C9 [' ', 'a', '。'] 170 ['a', '。'] (by decide)

/-- Counterexample to C2: the input `"a.b"` contains an ASCII full stop, yet
the splitter returns it as one single piece — no split occurs after the
ASCII mark, contradicting the claim that a split occurs immediately after
every ASCII `'.'`, `'!'` or `'?'`. -/
theorem claim_C2_counterexample :
    '.' ∈ ['a', '.', 'b'] ∧ splitSents ['a', '.', 'b'] = [['a', '.', 'b']] ∧
      (splitSents ['a', '.', 'b']).length = 1 := by
  decide

/-- C2 (amended): the formatter splits exactly at the CJK full-width marks
`。`, `！`, `？` and the full-width semicolon `；`, keeping each mark
attached to the end of the preceding piece (every piece but the last ends
with one such mark and contains no other, and the last piece contains
none); the ASCII marks `.`, `!`, `?`, `;` are not split points. -/
theorem claim_C2_amended :
    (∀ txt : List Char,
        (splitSents txt).flatten = txt ∧
          (∀ p ∈ (splitSents txt).dropLast,
            ∃ u tc, (∀ c ∈ u, isTerminal c = false) ∧ isTerminal tc = true ∧
              p = u ++ [tc]) ∧
          (∀ q, (splitSents txt).getLast? = some q → ∀ c ∈ q, isTerminal c = false)) ∧
      isTerminal '。' = true ∧ isTerminal '！' = true ∧ isTerminal '？' = true ∧
        isTerminal '；' = true ∧ isTerminal '.' = false ∧ isTerminal '!' = false ∧
        isTerminal '?' = false ∧ isTerminal ';' = false := by
  constructor
  · intro txt
    refine ⟨splitSents_flatten txt, ?_, ?_⟩
    · exact splitSentsAux_dropLast_term txt [] (by simp)
    · exact splitSentsAux_getLast_free txt [] (by simp)
  · decide

/-- Witness for C2 (amended) at `"a。b"`: the pieces rejoin to the input and
the non-final piece ends in its terminal mark. -/
theorem claim_C2_amended_witness :
    (splitSents ['a', '。', 'b']).flatten = ['a', '。', 'b'] ∧
      (∃ u tc, (∀ c ∈ u, isTerminal c = false) ∧ isTerminal tc = true ∧
        ['a', '。'] = u ++ [tc]) :=
  ⟨(claim_C2_amended.1 ['a', '。', 'b']).1,
    (claim_C2_amended.1 ['a', '。', 'b']).2.1 ['a', '。'] (by decide)⟩

/-- C3: for chunk duration `d = minutes·60·1000` ms and audio length `L` ms,
the chunker produces `⌈L/d⌉ = (L+d-1)/d` segments; segment `k` starts at
`k·d` and ends at `min ((k+1)·d) L`; every segment except the last is
exactly `d` long; consecutive segments are adjacent (no gap, no overlap);
and when `L > 0` the last segment has a length in `(0, d]` and ends exactly
at `L`. -/
theorem claim_C3 (L minutes : Nat) (hm : 0 < minutes) :
    (chunk_wav L minutes).length = (L + chunkStep minutes - 1) / chunkStep minutes ∧
    (∀ k, ∀ h : k < (chunk_wav L minutes).length,
        ((chunk_wav L minutes)[k]).1 = k * chunkStep minutes ∧
        ((chunk_wav L minutes)[k]).1 + ((chunk_wav L minutes)[k]).2
          = min ((k + 1) * chunkStep minutes) L) ∧
    (∀ k, ∀ h : k < (chunk_wav L minutes).length, k + 1 < (chunk_wav L minutes).length →
        ((chunk_wav L minutes)[k]).2 = chunkStep minutes) ∧
    (∀ k, ∀ h : k < (chunk_wav L minutes).length,
        ∀ h' : k + 1 < (chunk_wav L minutes).length,
        ((chunk_wav L minutes)[k]).1 + ((chunk_wav L minutes)[k]).2
          = ((chunk_wav L minutes)[k + 1]).1) ∧
    (0 < L → ∃ hne : chunk_wav L minutes ≠ [],
        0 < ((chunk_wav L minutes).getLast hne).2 ∧
        ((chunk_wav L minutes).getLast hne).2 ≤ chunkStep minutes ∧
        ((chunk_wav L minutes).getLast hne).1 + ((chunk_wav L minutes).getLast hne).2
          = L) := by
  have hd : 0 < chunkStep minutes := chunkStep_pos minutes hm
  have hlen := chunk_wav_length L minutes
  refine ⟨hlen, ?_, ?_, ?_, ?_⟩
  · intro k h
    rw [chunk_wav_getElem L minutes k h]
    have hkd : k * chunkStep minutes < L :=
      mul_lt_of_lt_ceil L (chunkStep minutes) k hd (by rw [← hlen]; exact h)
    have hsucc : (k + 1) * chunkStep minutes = k * chunkStep minutes + chunkStep minutes :=
      Nat.succ_mul k (chunkStep minutes)
    exact ⟨rfl, by omega⟩
  · intro k h hk1
    rw [chunk_wav_getElem L minutes k h]
    have hkd : (k + 1) * chunkStep minutes < L :=
      mul_lt_of_lt_ceil L (chunkStep minutes) (k + 1) hd (by rw [← hlen]; exact hk1)
    have hsucc : (k + 1) * chunkStep minutes = k * chunkStep minutes + chunkStep minutes :=
      Nat.succ_mul k (chunkStep minutes)
    simp only
    omega
  · intro k h h'
    rw [chunk_wav_getElem L minutes k h, chunk_wav_getElem L minutes (k + 1) h']
    have hkd : (k + 1) * chunkStep minutes < L :=
      mul_lt_of_lt_ceil L (chunkStep minutes) (k + 1) hd (by rw [← hlen]; exact h')
    have hsucc : (k + 1) * chunkStep minutes = k * chunkStep minutes + chunkStep minutes :=
      Nat.succ_mul k (chunkStep minutes)
    simp only
    omega
  · intro hL
    have hpos : 0 < (chunk_wav L minutes).length := by
      rw [hlen]
      exact ceil_pos L (chunkStep minutes) hd hL
    have hne : chunk_wav L minutes ≠ [] := List.ne_nil_of_length_pos hpos
    refine ⟨hne, ?_⟩
    have hgl : (chunk_wav L minutes).getLast hne
        = (chunk_wav L minutes)[(chunk_wav L minutes).length - 1] := by
      rw [List.getLast_eq_getElem]
    rw [hgl, chunk_wav_getElem L minutes _ (by omega)]
    have hn1 : (chunk_wav L minutes).length - 1 < (L + chunkStep minutes - 1) / chunkStep minutes := by
      rw [← hlen]
      omega
    have hkd : ((chunk_wav L minutes).length - 1) * chunkStep minutes < L :=
      mul_lt_of_lt_ceil L (chunkStep minutes) _ hd hn1
    have hup : L ≤ ((chunk_wav L minutes).length - 1) * chunkStep minutes + chunkStep minutes := by
      have hceil : L ≤ (L + chunkStep minutes - 1) / chunkStep minutes * chunkStep minutes :=
        le_ceil_mul L (chunkStep minutes) hd
      have heq : (L + chunkStep minutes - 1) / chunkStep minutes
          = (chunk_wav L minutes).length - 1 + 1 := by
        rw [← hlen]
        omega
      rw [heq, Nat.succ_mul] at hceil
      exact hceil
    simp only
    omega

/-- Witness for C3 at a 90-second waveform with 1-minute chunks: two
segments. -/
theorem claim_C3_witness :
    (chunk_wav 90000 1).length = (90000 + chunkStep 1 - 1) / chunkStep 1 :=
  (claim_C3 90000 1 (by decide)).1

/-- C7: `ensure_ffmpeg` prefers `base_dir/ffmpeg.exe`, then the search path
(`shutil.which("ffmpeg")`, then `shutil.which("ffmpeg.exe")`), returning the
first hit; when all probes fail it raises the fixed message — which names
both resolution strategies: placing `ffmpeg.exe` next to the program, and
adding ffmpeg to `PATH` — and the pipeline run then aborts with that
message before writing any file. -/
theorem claim_C7 (env : Env) (minutes paraMax : Nat) :
    (env.localFfmpegExists = true →
        ensure_ffmpeg env = .ok (env.baseDir ++ '/' :: "ffmpeg.exe".toList)) ∧
    (env.localFfmpegExists = false → ∀ p, env.whichFfmpeg = some p →
        ensure_ffmpeg env = .ok p) ∧
    (env.localFfmpegExists = false → env.whichFfmpeg = none →
        ∀ p, env.whichFfmpegExe = some p → ensure_ffmpeg env = .ok p) ∧
    (env.localFfmpegExists = false → env.whichFfmpeg = none →
      env.whichFfmpegExe = none →
        ensure_ffmpeg env = .error ffmpegMissingMsg ∧
        (∃ a b, ffmpegMissingMsg = a ++ "ffmpeg.exe".toList ++ b) ∧
        (∃ a b, ffmpegMissingMsg = a ++ "PATH".toList ++ b) ∧
        run_pipeline env minutes paraMax = ([], some ffmpegMissingMsg)) := by
  refine ⟨?_, ?_, ?_, ?_⟩
  · intro hl
    unfold ensure_ffmpeg
    rw [if_pos hl]
  · intro hl p hp
    unfold ensure_ffmpeg
    rw [if_neg (by simp [hl]), hp]
    rfl
  · intro hl hw p hp
    unfold ensure_ffmpeg
    rw [if_neg (by simp [hl]), hw, hp]
    rfl
  · intro hl hw hwe
    have herr : ensure_ffmpeg env = .error ffmpegMissingMsg := by
      unfold ensure_ffmpeg
      rw [if_neg (by simp [hl]), hw, hwe]
      rfl
    refine ⟨herr, ?_, ?_, ?_⟩
    · exact ⟨"找不到 ffmpeg，請將 ".toList,
        " 放在本程式同資料夾，或把 ffmpeg 加到 PATH。".toList, by decide⟩
    · exact ⟨"找不到 ffmpeg，請將 ffmpeg.exe 放在本程式同資料夾，或把 ffmpeg 加到 ".toList,
        "。".toList, by decide⟩
    · unfold run_pipeline
      rw [herr]

/-- Witness for C7: an environment with no local `ffmpeg.exe` and empty
search-path probes makes `ensure_ffmpeg` fail with the fixed message and the
pipeline abort with no file written. -/
theorem claim_C7_witness :
    ensure_ffmpeg ⟨['b'], false, none, none, ['d'], ['s'], 0, fun _ => []⟩ =
        .error ffmpegMissingMsg ∧
      run_pipeline ⟨['b'], false, none, none, ['d'], ['s'], 0, fun _ => []⟩ 1 170 =
        ([], some ffmpegMissingMsg) := by
  have h := (claim_C7 ⟨['b'], false, none, none, ['d'], ['s'], 0, fun _ => []⟩ 1 170).2.2.2
    rfl rfl rfl
  exact ⟨h.1, h.2.2.2⟩

/-- C8: on a successful run the pipeline reports no error, and its final
write is the transcript file at `<base_dir>/transcripts/<stem>.txt` whose
content is the paragraphs of the concatenation (in chunk index order, with
no separator) of the per-chunk fragments, joined by exactly one blank line
`"\n\n"` with nothing after them.  (The model works in code points; the
actual write serialises them as UTF-8 via `encoding="utf-8"`.) -/
theorem claim_C8 (env : Env) (minutes paraMax : Nat) (f : List Char)
    (hok : ensure_ffmpeg env = .ok f) :
    (run_pipeline env minutes paraMax).2 = none ∧
    (run_pipeline env minutes paraMax).1.getLast? =
      some (FileWrite.textFile (outPath env)
        (List.intercalate blankSep
          (paragraphize
            (((List.range (chunk_wav env.audioLen minutes).length).map env.transcribe).flatten)
            paraMax))) := by
  unfold run_pipeline
  rw [hok]
  refine ⟨rfl, ?_⟩
  rw [List.getLast?_concat]

/-- Witness for C8 on a concrete environment (one 60-second chunk whose
fragment is `"哈。"`). -/
theorem claim_C8_witness :
    (run_pipeline ⟨['b'], true, none, none, ['d'], ['s'], 60000,
        fun _ => ['哈', '。']⟩ 1 170).2 = none ∧
    (run_pipeline ⟨['b'], true, none, none, ['d'], ['s'], 60000,
        fun _ => ['哈', '。']⟩ 1 170).1.getLast? =
      some (FileWrite.textFile
        (outPath ⟨['b'], true, none, none, ['d'], ['s'], 60000, fun _ => ['哈', '。']⟩)
        (List.intercalate blankSep
          (paragraphize
            (((List.range (chunk_wav 60000 1).length).map
              ((⟨['b'], true, none, none, ['d'], ['s'], 60000,
                fun _ => ['哈', '。']⟩ : Env).transcribe)).flatten)
            170))) :=
  claim_C8 ⟨['b'], true, none, none, ['d'], ['s'], 60000, fun _ => ['哈', '。']⟩ 1 170
    (['b'] ++ '/' :: "ffmpeg.exe".toList) (by rfl)

/-- C10: when the raw input (after stripping) is non-empty and parses as a
non-absolute path, `on_start` resolves it to
`base_dir / Path(input).name` — only the final filename component is kept,
any directory components are discarded — and the existence check that
rejects the job (before any worker thread starts) runs on that resolved
path.  The second conjunct states the discarding explicitly: the name of
`dir/nm` is `nm` for any separator-free final component. -/
theorem claim_C10 (env : StartEnv) (hrun : env.running = false)
    (habs : env.inputIsAbsolute = false) (hne : strip env.rawInput ≠ []) :
    (on_start env =
      if env.pathExists (joinPath env.baseDir (pathName (strip env.rawInput))) = true
      then .started (joinPath env.baseDir (pathName (strip env.rawInput)))
      else .notFound (joinPath env.baseDir (pathName (strip env.rawInput)))) ∧
    (∀ dir nm : List Char, nm ≠ [] → (∀ c ∈ nm, isSep c = false) → nm ≠ ['.'] →
      pathName (dir ++ '/' :: nm) = nm) := by
  constructor
  · unfold on_start
    rw [if_neg (by simp [hrun])]
    simp only [habs]
    rw [if_neg (by simpa [List.isEmpty_iff] using hne)]
    rfl
  · intro dir nm h1 h2 h3
    exact pathName_append dir nm h1 h2 h3

/-- Witness for C10: raw input `" v/x.mp4"` with a never-exists filesystem:
the directory `v/` is discarded and the job is rejected on
`b/x.mp4`. -/
theorem claim_C10_witness :
    on_start ⟨false, [' ', 'v', '/', 'x', '.', 'm', 'p', '4'], ['b'], false,
        fun _ => false⟩ =
      .notFound (['b'] ++ '/' :: ['x', '.', 'm', 'p', '4']) := by
  have h := (claim_C10 ⟨false, [' ', 'v', '/', 'x', '.', 'm', 'p', '4'], ['b'], false,
    fun _ => false⟩ rfl rfl (by decide)).1
  rw [h]
  decide

end MP4
